import Mathlib

/-!
Verification of the Yu-Gi-Oh! Simultaneous Equation Cannon Excel generator
(`generate.py`).

The program has three parts, embedded here as pure Lean functions:
* `solve` (source lines 24-43): enumerate every `(fusion, xyz)` pair in the
  given inclusive ranges, derive `stars = fusion + xyz` and
  `nb_cards = fusion + 2*xyz`, and sort the records by `stars` descending,
  then `xyz` descending (Python's stable `list.sort` with
  `key=(stars, xyz), reverse=True`, modelled by a stable insertion sort with
  the reversed lexicographic comparator).
* `generate_excel` (source lines 46-102): build the spreadsheet (header row,
  data rows, merged column-1 groups) and save it; the workbook content is
  modelled as an explicit list of cell writes plus merge ranges, and the save
  step as a transition on a small filesystem model.
* `main` (source lines 105-136): validate the four CLI bounds in order, build
  the output path and run the two functions in sequence; embedded as
  `main_model`.

Python integers are unbounded, so all numeric fields are `Int`.
-/



/-- A solution record, the dict built at source line 38:
`{"stars": stars, "nb_cards": nb_cards, "xyz": xyz, "fusion": fusion}`. -/
structure Sol where
  stars : Int
  nb_cards : Int
  xyz : Int
  fusion : Int
deriving DecidableEq, Repr

/-- The record built for one `(fusion, xyz)` pair (source lines 35-38):
`stars = fusion + xyz`, `nb_cards = fusion + 2 * xyz`. -/
def mkSol (fusion xyz : Int) : Sol :=
  { stars := fusion + xyz, nb_cards := fusion + 2 * xyz,
    xyz := xyz, fusion := fusion }

/-- Python `range(lo, hi + 1)` over integers: the list `lo, lo+1, ..., hi`
(empty when `hi < lo`).  Source lines 33-34 use `range(fusion_min,
fusion_max + 1)` and `range(xyz_min, xyz_max + 1)`. -/
def intRange (lo hi : Int) : List Int :=
  (List.range (hi + 1 - lo).toNat).map (fun (i : Nat) => lo + (i : Int))

/-- The nested enumeration loop of `solve` (source lines 32-39): for each
`fusion` in range (outer loop) and each `xyz` in range (inner loop), append
the record `mkSol fusion xyz`. -/
def enumerate (fusion_min fusion_max xyz_min xyz_max : Int) : List Sol :=
  (intRange fusion_min fusion_max).flatMap (fun fusion =>
    (intRange xyz_min xyz_max).map (mkSol fusion))

/-- The comparator realised by source line 42,
`solutions.sort(key=lambda s: (s["stars"], s["xyz"]), reverse=True)`:
record `a` may precede record `b` exactly when the key tuple of `a` is
lexicographically at least the key tuple of `b`. -/
def solGE (a b : Sol) : Prop :=
  b.stars < a.stars ∨ (b.stars = a.stars ∧ b.xyz ≤ a.xyz)

instance : DecidableRel solGE := fun a b => by unfold solGE; infer_instance

instance : IsTotal Sol solGE := ⟨by intro a b; unfold solGE; omega⟩

instance : IsTrans Sol solGE := ⟨by intro a b c; unfold solGE; omega⟩

/-- `solve` (source lines 24-43): enumerate, then sort with the composite
descending key.  Python's `list.sort` is a stable sort; it is modelled by
`List.insertionSort`, which is stable for the comparator `solGE`
(an element is inserted before the first already-placed element whose key is
not strictly greater, so records with equal keys keep enumeration order). -/
def solve (fusion_min fusion_max xyz_min xyz_max : Int) : List Sol :=
  List.insertionSort solGE (enumerate fusion_min fusion_max xyz_min xyz_max)

/-- A value written into a worksheet cell: a header string or an integer. -/
inductive CellVal where
  | str (s : String)
  | int (n : Int)
deriving DecidableEq, Repr

/-- One `ws.cell(row=r, column=c, value=v)` write; `v = none` models
`value=None` (a blank). -/
abbrev Cell := Nat × Nat × Option CellVal

/-- The header row written at source lines 58-62. -/
def headerCells : List Cell :=
  [(1, 1, some (CellVal.str "stars")), (1, 2, some (CellVal.str "nb cards")),
   (1, 3, some (CellVal.str "xyz")), (1, 4, some (CellVal.str "fusion"))]

/-- The guarded `ws.merge_cells` call (source lines 73-77 with
`endRow = row_idx - 1`, and lines 93-97 with `endRow = last_row`): merge
column 1 from the group start to `endRow` when the group spans more than one
row.  `grp` bundles `(current_stars, group_start_row)`, which the source sets
and clears together (lines 65-66 and 80-81). -/
def closeGroup (grp : Option (Int × Nat)) (endRow : Nat) : List (Nat × Nat) :=
  match grp with
  | some (_, g) => if g < endRow then [(g, endRow)] else []
  | none => []

/-- Columns 2-4 of a data row, always populated (source lines 87-89). -/
def rowTail (row : Nat) (s : Sol) : List Cell :=
  [(row, 2, some (CellVal.int s.nb_cards)), (row, 3, some (CellVal.int s.xyz)),
   (row, 4, some (CellVal.int s.fusion))]

/-- The data-row loop of `generate_excel` (source lines 64-89), started at
`row = 2` with no open group.  Returns the cell writes, the merge ranges
emitted inside the loop, and the final `(current_stars, group_start_row)`
state used by the closing merge. -/
def renderRows (row : Nat) (grp : Option (Int × Nat)) :
    List Sol → List Cell × List (Nat × Nat) × Option (Int × Nat)
  | [] => ([], [], grp)
  | s :: rest =>
    if some s.stars ≠ grp.map Prod.fst then
      (((row, 1, some (CellVal.int s.stars)) :: rowTail row s) ++
         (renderRows (row + 1) (some (s.stars, row)) rest).1,
       closeGroup grp (row - 1) ++
         (renderRows (row + 1) (some (s.stars, row)) rest).2.1,
       (renderRows (row + 1) (some (s.stars, row)) rest).2.2)
    else
      (((row, 1, (none : Option CellVal)) :: rowTail row s) ++
         (renderRows (row + 1) grp rest).1,
       (renderRows (row + 1) grp rest).2.1,
       (renderRows (row + 1) grp rest).2.2)

/-- The workbook content produced by `generate_excel`: the cell writes and
the column-1 merge ranges. -/
structure Sheet where
  cells : List Cell
  merges : List (Nat × Nat)
deriving DecidableEq, Repr

/-- `generate_excel` without the save step (source lines 46-97): header row,
data rows, and the closing merge guarded by `group_start_row is not None and
last_row > group_start_row` with `last_row = len(solutions) + 1`
(source lines 91-97). -/
def generate_excel (sols : List Sol) : Sheet :=
  { cells := headerCells ++ (renderRows 2 none sols).1,
    merges := (renderRows 2 none sols).2.1 ++
      closeGroup (renderRows 2 none sols).2.2 (sols.length + 1) }

/-- Maximal contiguous runs of equal values, as `(start_row, end_row, value)`
triples; `runsAux v s e l` extends a run of value `v` currently spanning rows
`s..e` by the elements of `l`. -/
def runsAux (v : Int) (s e : Nat) : List Int → List (Nat × Nat × Int)
  | [] => [(s, e, v)]
  | a :: l =>
    if a = v then runsAux v s (e + 1) l
    else (s, e, v) :: runsAux a (e + 1) (e + 1) l

/-- The maximal contiguous runs of equal values of a list, with rows numbered
from `start`. -/
def runs (start : Nat) : List Int → List (Nat × Nat × Int)
  | [] => []
  | a :: l => runsAux a start start l

/-- The merge ranges a run decomposition calls for: one `(start_row,
end_row)` range per run spanning more than one row. -/
def mergesOfRuns (rs : List (Nat × Nat × Int)) : List (Nat × Nat) :=
  rs.filterMap (fun r => if r.1 < r.2.1 then some (r.1, r.2.1) else none)

/-- The column-1 writes a run decomposition calls for: the value on the first
row of each run, a blank on every later row of the run. -/
def col1OfRuns (rs : List (Nat × Nat × Int)) : List (Nat × Option CellVal) :=
  rs.flatMap (fun r => (r.1, some (CellVal.int r.2.2)) ::
    (List.range (r.2.1 - r.1)).map (fun i => (r.1 + 1 + i, (none : Option CellVal))))

/-- Column-1 writes from row `row` onwards when the first run of `rs` is
already open (its first row was written earlier): blanks to the end of the
first run, then the full pattern of the remaining runs. -/
def col1Cont (row : Nat) : List (Nat × Nat × Int) → List (Nat × Option CellVal)
  | [] => []
  | r :: rest => (List.range (r.2.1 + 1 - row)).map
      (fun i => (row + i, (none : Option CellVal))) ++ col1OfRuns rest

/-- The column-1 writes among a list of cell writes that lie in the data-row
region (rows `≥ 2`), in write order, as `(row, value)` pairs. -/
def col1Data (cells : List Cell) : List (Nat × Option CellVal) :=
  cells.filterMap
    (fun c => if c.2.1 = 1 ∧ 2 ≤ c.1 then some (c.1, c.2.2) else none)

/-- The column-1 writes of the data rows (rows `≥ 2`) of a sheet, in write
order, as `(row, value)` pairs. -/
def dataCol1 (sheet : Sheet) : List (Nat × Option CellVal) :=
  col1Data sheet.cells

/-- The final `(current_stars, group_start_row)` state of the data-row loop:
fold of the group-switch logic (source lines 71-81) over the stars column. -/
def lastGroup (v : Int) (s : Nat) (row : Nat) : List Int → Int × Nat
  | [] => (v, s)
  | a :: l => if a = v then lastGroup v s (row + 1) l else lastGroup a row (row + 1) l

/-- Expansion of a run decomposition back into the value sequence. -/
def runsFlatten (rs : List (Nat × Nat × Int)) : List Int :=
  rs.flatMap (fun r => List.replicate (r.2.1 + 1 - r.1) r.2.2)

/-- The characters of `p` up to and including the last `'/'` (POSIX
`os.path.dirname` takes `p[:i]` with `i` just past the last slash); empty
when `p` has no slash. -/
def beforeLastSlash : List Char → List Char
  | [] => []
  | c :: cs =>
    if '/' ∈ cs then c :: beforeLastSlash cs
    else if c = '/' then ['/'] else []

/-- Drop trailing `'/'` characters. -/
def stripTrailingSlashes (l : List Char) : List Char :=
  (l.reverse.dropWhile (fun c => c = '/')).reverse

/-- POSIX `os.path.dirname` on the character list: the head up to the last
slash, with trailing slashes stripped unless the head is all slashes. -/
def dirnameList (l : List Char) : List Char :=
  if (beforeLastSlash l).all (fun c => c = '/') then beforeLastSlash l
  else stripTrailingSlashes (beforeLastSlash l)

/-- `os.path.dirname` as used at source line 100 (POSIX separators). -/
def dirname (s : String) : String := String.mk (dirnameList s.data)

/-- POSIX `os.path.join a b` for a relative second component (the only case
arising here: source line 134 joins `script_dir`, `"results"` and the
filename, neither of the latter absolute): `b` when `a` is empty, otherwise
`a ++ b` with a separating slash unless `a` already ends in one. -/
def joinChars (a b : List Char) : List Char :=
  if a = [] then b
  else if a.getLast? = some '/' then a ++ b
  else a ++ '/' :: b

/-- `os.path.join` on strings (relative second component). -/
def joinPath (a b : String) : String := String.mk (joinChars a.data b.data)

/-- The filesystem model: the set of directories known to exist and the
files by path with their sheet contents. -/
structure FS where
  dirs : List String
  files : List (String × Sheet)
deriving DecidableEq, Repr

def emptyFS : FS := { dirs := [], files := [] }

/-- `os.makedirs(d, exist_ok=True)` (source line 100): raises
`FileNotFoundError` when `d` is the empty string, succeeds without change
when `d` already exists, creates it otherwise. -/
def makedirs (d : String) (fs : FS) : Except String FS :=
  if d = "" then Except.error "FileNotFoundError"
  else if d ∈ fs.dirs then Except.ok fs
  else Except.ok { fs with dirs := d :: fs.dirs }

/-- `wb.save(output_path)` (source line 101): write the file, overwriting any
existing file at the same path. -/
def writeFile : List (String × Sheet) → String → Sheet → List (String × Sheet)
  | [], p, sh => [(p, sh)]
  | (q, t) :: rest, p, sh =>
    if q = p then (q, sh) :: rest else (q, t) :: writeFile rest p sh

/-- Look up the file stored at a path. -/
def findFile : List (String × Sheet) → String → Option Sheet
  | [], _ => none
  | (q, t) :: rest, p => if q = p then some t else findFile rest p

/-- The save step of `generate_excel` (source lines 99-101):
`os.makedirs(os.path.dirname(output_path), exist_ok=True)` followed by
`wb.save(output_path)`; an exception from `makedirs` aborts before any file
is written. -/
def generate_excel_save (sols : List Sol) (output_path : String)
    (fs : FS) : Except String FS :=
  match makedirs (dirname output_path) fs with
  | Except.error e => Except.error e
  | Except.ok fs1 =>
      Except.ok { fs1 with
        files := writeFile fs1.files output_path (generate_excel sols) }

/-- The validation chain of `main` (source lines 123-128), in source order:
fusion ordering, then xyz ordering, then positivity of both minima; each
failure is a `parser.error` (a fatal usage error with the quoted message and
a non-zero exit). -/
def validate (fusion_min fusion_max xyz_min xyz_max : Int) :
    Except String Unit :=
  if fusion_min > fusion_max then
    Except.error "fusion_min must be ≤ fusion_max"
  else if xyz_min > xyz_max then
    Except.error "xyz_min must be ≤ xyz_max"
  else if fusion_min < 1 ∨ xyz_min < 1 then
    Except.error "All level/rank values must be ≥ 1"
  else Except.ok ()

/-- The output filename f-string of source line 133:
`sec xyz{xyz_min}-{xyz_max} fusion{fusion_min}-{fusion_max}.xlsx`. -/
def output_filename (xyz_min xyz_max fusion_min fusion_max : Int) : String :=
  "sec xyz" ++ toString xyz_min ++ "-" ++ toString xyz_max ++
    " fusion" ++ toString fusion_min ++ "-" ++ toString fusion_max ++ ".xlsx"

/-- The output path of source line 134:
`os.path.join(script_dir, "results", filename)`, with the script directory
(an absolute path determined by the program's own location, source line 132)
taken as a parameter. -/
def output_path (script_dir : String)
    (xyz_min xyz_max fusion_min fusion_max : Int) : String :=
  joinPath (joinPath script_dir "results")
    (output_filename xyz_min xyz_max fusion_min fusion_max)

/-- `main` after argument parsing (source lines 121-136): validate the four
bounds (CLI argument order is `xyz_min xyz_max fusion_min fusion_max`), then
run the enumerator and the renderer in sequence on the computed output
path. -/
def main_model (script_dir : String)
    (xyz_min xyz_max fusion_min fusion_max : Int) (fs : FS) :
    Except String FS :=
  match validate fusion_min fusion_max xyz_min xyz_max with
  | Except.error e => Except.error e
  | Except.ok _ =>
      generate_excel_save (solve fusion_min fusion_max xyz_min xyz_max)
        (output_path script_dir xyz_min xyz_max fusion_min fusion_max) fs

lemma mem_intRange {a lo hi : Int} : a ∈ intRange lo hi ↔ lo ≤ a ∧ a ≤ hi := by
  unfold intRange
  rw [List.mem_map]
  constructor
  · rintro ⟨i, hi', rfl⟩
    rw [List.mem_range] at hi'
    omega
  · rintro ⟨h1, h2⟩
    refine ⟨(a - lo).toNat, ?_, ?_⟩
    · rw [List.mem_range]
      omega
    · omega

lemma length_intRange (lo hi : Int) :
    (intRange lo hi).length = (hi + 1 - lo).toNat := by
  unfold intRange
  rw [List.length_map, List.length_range]

lemma nodup_intRange (lo hi : Int) : (intRange lo hi).Nodup := by
  unfold intRange
  refine List.Nodup.map ?_ (List.nodup_range _)
  intro i j h
  have h' : lo + (i : Int) = lo + (j : Int) := h
  omega

lemma mem_enumerate {s : Sol} {fm fM xm xM : Int} :
    s ∈ enumerate fm fM xm xM ↔
      fm ≤ s.fusion ∧ s.fusion ≤ fM ∧ xm ≤ s.xyz ∧ s.xyz ≤ xM ∧
      s.stars = s.fusion + s.xyz ∧ s.nb_cards = s.fusion + 2 * s.xyz := by
  rw [enumerate, List.mem_flatMap]
  constructor
  · rintro ⟨f, hf, hs⟩
    rcases List.mem_map.mp hs with ⟨x, hx, rfl⟩
    rw [mem_intRange] at hf hx
    exact ⟨hf.1, hf.2, hx.1, hx.2, rfl, rfl⟩
  · rintro ⟨h1, h2, h3, h4, h5, h6⟩
    refine ⟨s.fusion, mem_intRange.mpr ⟨h1, h2⟩,
      List.mem_map.mpr ⟨s.xyz, mem_intRange.mpr ⟨h3, h4⟩, ?_⟩⟩
    cases s with
    | mk st nb xy fu =>
      have h5' : st = fu + xy := h5
      have h6' : nb = fu + 2 * xy := h6
      simp [mkSol, Sol.mk.injEq]
      omega

lemma solve_perm_enumerate (fm fM xm xM : Int) :
    (solve fm fM xm xM).Perm (enumerate fm fM xm xM) :=
  List.perm_insertionSort solGE _

lemma length_enumerate (fm fM xm xM : Int) :
    (enumerate fm fM xm xM).length =
      (fM + 1 - fm).toNat * (xM + 1 - xm).toNat := by
  rw [enumerate, List.length_flatMap]
  have h : List.map (List.length ∘ fun fusion =>
        (intRange xm xM).map (mkSol fusion)) (intRange fm fM) =
      List.map (fun _ => (xM + 1 - xm).toNat) (intRange fm fM) :=
    List.map_congr_left (fun f _ => by
      simp only [Function.comp_apply, List.length_map, length_intRange])
  rw [h, List.map_const', List.sum_replicate, smul_eq_mul, length_intRange]

/-- On a duplicate-free list, the predicate "equals `a`" counts to one for
any member `a`. -/
lemma countP_eq_one_of_nodup {l : List Int} (hl : l.Nodup) {a : Int}
    (ha : a ∈ l) : l.countP (fun b => decide (b = a)) = 1 := by
  induction l with
  | nil => cases ha
  | cons b l ih =>
    rcases List.nodup_cons.mp hl with ⟨hb, hl'⟩
    rcases List.mem_cons.mp ha with h | h
    · subst h
      rw [List.countP_cons_of_pos _ _ (by simp)]
      have hz : l.countP (fun c => decide (c = a)) = 0 := by
        rw [List.countP_eq_zero]
        intro c hc
        simp only [decide_eq_true_eq]
        exact fun e => hb (e ▸ hc)
      omega
    · have hba : b ≠ a := fun e => hb (e ▸ h)
      rw [List.countP_cons_of_neg _ _ (by simpa using hba)]
      exact ih hl' h

/-- Summing an indicator of membership over a duplicate-free list gives one. -/
lemma sum_map_indicator {l : List Int} (hl : l.Nodup) {a : Int} (ha : a ∈ l) :
    (l.map (fun b => if b = a then (1 : Nat) else 0)).sum = 1 := by
  induction l with
  | nil => cases ha
  | cons b l ih =>
    rcases List.nodup_cons.mp hl with ⟨hb, hl'⟩
    rcases List.mem_cons.mp ha with h | h
    · subst h
      have hz : List.map (fun c => if c = a then (1 : Nat) else 0) l =
          List.map (fun _ => (0 : Nat)) l :=
        List.map_congr_left (fun c hc => by
          have hzz : c ≠ a := fun e => hb (e ▸ hc)
          simp [hzz])
      simp [hz, List.map_const']
    · have hba : b ≠ a := fun e => hb (e ▸ h)
      simp [hba, ih hl' h]

/-- Exactly one record of the enumeration carries a given in-range
`(fusion, xyz)` pair. -/
lemma countP_enumerate {fm fM xm xM f x : Int}
    (hf1 : fm ≤ f) (hf2 : f ≤ fM) (hx1 : xm ≤ x) (hx2 : x ≤ xM) :
    (enumerate fm fM xm xM).countP
      (fun s => decide (s.fusion = f ∧ s.xyz = x)) = 1 := by
  rw [enumerate, List.countP_flatMap]
  have hinner : ∀ fu ∈ intRange fm fM,
      ((List.countP fun s => decide (s.fusion = f ∧ s.xyz = x)) ∘
        fun fusion => (intRange xm xM).map (mkSol fusion)) fu =
      if fu = f then 1 else 0 := by
    intro fu _
    simp only [Function.comp_apply, List.countP_map]
    by_cases hfu : fu = f
    · subst hfu
      rw [if_pos rfl]
      have heq : ((fun s => decide (s.fusion = fu ∧ s.xyz = x)) ∘ mkSol fu) =
          fun b => decide (b = x) := by
        funext b
        simp [mkSol]
      rw [heq]
      exact countP_eq_one_of_nodup (nodup_intRange xm xM)
        (mem_intRange.mpr ⟨hx1, hx2⟩)
    · rw [if_neg hfu, List.countP_eq_zero]
      intro b _
      simp [mkSol, hfu]
  rw [List.map_congr_left hinner]
  exact sum_map_indicator (nodup_intRange fm fM) (mem_intRange.mpr ⟨hf1, hf2⟩)

/-- The `(fusion, xyz)` key is duplicate-free across the enumeration. -/
lemma nodup_key_enumerate (fm fM xm xM : Int) :
    ((enumerate fm fM xm xM).map (fun s => (s.fusion, s.xyz))).Nodup := by
  rw [enumerate, List.map_flatMap, List.nodup_flatMap]
  constructor
  · intro f _
    rw [List.map_map]
    have hco : ((fun s : Sol => (s.fusion, s.xyz)) ∘ mkSol f) =
        fun x : Int => (f, x) := rfl
    rw [hco]
    refine List.Nodup.map ?_ (nodup_intRange xm xM)
    intro a b h
    simpa using h
  · refine List.Pairwise.imp ?_ (nodup_intRange fm fM)
    intro f g hfg p hp hq
    simp only [List.map_map] at hp hq
    rcases List.mem_map.mp hp with ⟨x, _, rfl⟩
    rcases List.mem_map.mp hq with ⟨y, _, he⟩
    have he' : ((g : Int), y) = ((f : Int), x) := he
    injection he' with he1 he2
    exact hfg he1.symm

/-- No two positions of the enumeration share both `fusion` and `xyz`. -/
lemma pairwise_key_ne_enumerate (fm fM xm xM : Int) :
    (enumerate fm fM xm xM).Pairwise
      (fun a b => ¬(a.fusion = b.fusion ∧ a.xyz = b.xyz)) := by
  have h := nodup_key_enumerate fm fM xm xM
  rw [List.Nodup, List.pairwise_map] at h
  refine h.imp ?_
  intro a b hab ⟨h1, h2⟩
  exact hab (by rw [h1, h2])

/-- C1: for every valid bound quadruple, `solve` returns exactly
`(fusion_max - fusion_min + 1) * (xyz_max - xyz_min + 1)` records, every
in-range `(fusion, xyz)` pair appears in exactly one record, and every
record satisfies `stars = fusion + xyz` and `nb_cards = fusion + 2*xyz`. -/
theorem solve_enumerates_all_pairs (fm fM xm xM : Int)
    (h1 : fm ≤ fM) (h2 : xm ≤ xM) (h3 : 1 ≤ fm) (h4 : 1 ≤ xm) :
    ((solve fm fM xm xM).length : Int) = (fM - fm + 1) * (xM - xm + 1) ∧
    (∀ f x : Int, fm ≤ f → f ≤ fM → xm ≤ x → x ≤ xM →
      (solve fm fM xm xM).countP
        (fun s => decide (s.fusion = f ∧ s.xyz = x)) = 1) ∧
    (∀ s ∈ solve fm fM xm xM,
      s.stars = s.fusion + s.xyz ∧ s.nb_cards = s.fusion + 2 * s.xyz) := by
  refine ⟨?_, ?_, ?_⟩
  · rw [(solve_perm_enumerate fm fM xm xM).length_eq, length_enumerate,
      Nat.cast_mul, Int.toNat_of_nonneg (by omega), Int.toNat_of_nonneg (by omega)]
    ring
  · intro f x hf1 hf2 hx1 hx2
    rw [List.Perm.countP_eq _ (solve_perm_enumerate fm fM xm xM)]
    exact countP_enumerate hf1 hf2 hx1 hx2
  · intro s hs
    have h := mem_enumerate.mp ((solve_perm_enumerate fm fM xm xM).mem_iff.mp hs)
    exact ⟨h.2.2.2.2.1, h.2.2.2.2.2⟩

theorem solve_enumerates_all_pairs_witness :
    ((1 : Int) ≤ 2 ∧ (1 : Int) ≤ 2 ∧ (1 : Int) ≤ 1 ∧ (1 : Int) ≤ 1) ∧
    (((solve 1 2 1 2).length : Int) = (2 - 1 + 1) * (2 - 1 + 1) ∧
    (∀ f x : Int, 1 ≤ f → f ≤ 2 → 1 ≤ x → x ≤ 2 →
      (solve 1 2 1 2).countP
        (fun s => decide (s.fusion = f ∧ s.xyz = x)) = 1) ∧
    (∀ s ∈ solve 1 2 1 2,
      s.stars = s.fusion + s.xyz ∧ s.nb_cards = s.fusion + 2 * s.xyz)) :=
  ⟨⟨by decide, by decide, by decide, by decide⟩,
    solve_enumerates_all_pairs 1 2 1 2 (by decide) (by decide) (by decide)
      (by decide)⟩

/-- C2: the sequence returned by `solve` is sorted non-increasing by `stars`,
and within equal `stars` non-increasing by `xyz`. -/
theorem solve_sorted (fm fM xm xM : Int)
    (h1 : fm ≤ fM) (h2 : xm ≤ xM) (h3 : 1 ≤ fm) (h4 : 1 ≤ xm) :
    (solve fm fM xm xM).Pairwise
      (fun a b => b.stars ≤ a.stars ∧ (a.stars = b.stars → b.xyz ≤ a.xyz)) := by
  refine List.Pairwise.imp ?_ (List.sorted_insertionSort solGE _)
  intro a b h
  unfold solGE at h
  omega

theorem solve_sorted_witness :
    ((1 : Int) ≤ 2 ∧ (1 : Int) ≤ 2 ∧ (1 : Int) ≤ 1 ∧ (1 : Int) ≤ 1) ∧
    (solve 1 2 1 2).Pairwise
      (fun a b => b.stars ≤ a.stars ∧ (a.stars = b.stars → b.xyz ≤ a.xyz)) :=
  ⟨⟨by decide, by decide, by decide, by decide⟩,
    solve_sorted 1 2 1 2 (by decide) (by decide) (by decide) (by decide)⟩

/-- C5: with `xyz_min ≥ 1`, every record of `solve` satisfies
`stars ≤ nb_cards`. -/
theorem solve_stars_le_nb_cards (fm fM xm xM : Int) (hx : 1 ≤ xm) :
    ∀ s ∈ solve fm fM xm xM, s.stars ≤ s.nb_cards := by
  intro s hs
  have h := mem_enumerate.mp ((solve_perm_enumerate fm fM xm xM).mem_iff.mp hs)
  omega

theorem solve_stars_le_nb_cards_witness :
    (1 : Int) ≤ 1 ∧ ∀ s ∈ solve 1 1 1 1, s.stars ≤ s.nb_cards :=
  ⟨by decide, solve_stars_le_nb_cards 1 1 1 1 (by decide)⟩

/-- C8: `(stars, xyz)` determines each record of the output (in particular
`fusion = stars - xyz`), and the composite descending sort admits no ties:
the output is strictly decreasing in the lexicographic `(stars, xyz)` key,
so the returned order is independent of sort stability or tie-breaking. -/
theorem solve_no_key_ties (fm fM xm xM : Int) :
    (∀ s ∈ solve fm fM xm xM, s.fusion = s.stars - s.xyz) ∧
    (solve fm fM xm xM).Pairwise
      (fun a b => b.stars < a.stars ∨ (b.stars = a.stars ∧ b.xyz < a.xyz)) := by
  constructor
  · intro s hs
    have h := mem_enumerate.mp ((solve_perm_enumerate fm fM xm xM).mem_iff.mp hs)
    omega
  · have hsorted : (solve fm fM xm xM).Pairwise solGE :=
      List.sorted_insertionSort solGE _
    have hne : (solve fm fM xm xM).Pairwise
        (fun a b => ¬(a.fusion = b.fusion ∧ a.xyz = b.xyz)) :=
      ((List.Perm.pairwise_iff (fun h ⟨e1, e2⟩ => h ⟨e1.symm, e2.symm⟩)
        (solve_perm_enumerate fm fM xm xM)).mpr
        (pairwise_key_ne_enumerate fm fM xm xM))
    have heqs : ∀ s ∈ solve fm fM xm xM, s.stars = s.fusion + s.xyz := by
      intro s hs
      exact (mem_enumerate.mp
        ((solve_perm_enumerate fm fM xm xM).mem_iff.mp hs)).2.2.2.2.1
    refine List.Pairwise.imp_of_mem ?_ (hsorted.and hne)
    intro a b ha hb ⟨hge, hkey⟩
    have ea := heqs a ha
    have eb := heqs b hb
    unfold solGE at hge
    omega

lemma runsAux_head (l : List Int) (v : Int) (s e : Nat) :
    ∃ E rest, runsAux v s e l = (s, E, v) :: rest ∧ e ≤ E := by
  induction l generalizing e with
  | nil => exact ⟨e, [], rfl, le_refl e⟩
  | cons a l ih =>
    by_cases h : a = v
    · simp only [runsAux, if_pos h]
      rcases ih (e + 1) with ⟨E, rest, heq, hle⟩
      exact ⟨E, rest, heq, by omega⟩
    · simp only [runsAux, if_neg h]
      exact ⟨e, _, rfl, le_refl e⟩

lemma runsAux_ne_nil (l : List Int) (v : Int) (s e : Nat) :
    runsAux v s e l ≠ [] := by
  rcases runsAux_head l v s e with ⟨E, rest, heq, _⟩
  rw [heq]
  exact List.cons_ne_nil _ _

lemma col1Data_cons_col1 (row : Nat) (x : Option CellVal) (cs : List Cell)
    (h : 2 ≤ row) :
    col1Data ((row, 1, x) :: cs) = (row, x) :: col1Data cs := by
  simp [col1Data, List.filterMap_cons, h]

lemma col1Data_rowTail (row : Nat) (s : Sol) (cs : List Cell) :
    col1Data (rowTail row s ++ cs) = col1Data cs := by
  simp [col1Data, rowTail, List.filterMap_cons]

lemma col1OfRuns_cons (r : Nat × Nat × Int) (rest : List (Nat × Nat × Int)) :
    col1OfRuns (r :: rest) =
      (r.1, some (CellVal.int r.2.2)) :: col1Cont (r.1 + 1) (r :: rest) := by
  obtain ⟨s, E, v⟩ := r
  have h : E + 1 - (s + 1) = E - s := by omega
  simp [col1OfRuns, col1Cont, h]

lemma col1Cont_step (row : Nat) (r : Nat × Nat × Int)
    (rest : List (Nat × Nat × Int)) (h : row ≤ r.2.1) :
    col1Cont row (r :: rest) =
      (row, (none : Option CellVal)) :: col1Cont (row + 1) (r :: rest) := by
  obtain ⟨s, E, v⟩ := r
  have hE : row ≤ E := h
  simp only [col1Cont]
  have h1 : E + 1 - row = (E - row) + 1 := by omega
  have h2 : E + 1 - (row + 1) = E - row := by omega
  rw [h1, h2, List.range_succ_eq_map, List.map_cons, List.map_map]
  have h3 : List.map ((fun i => (row + i, (none : Option CellVal))) ∘ Nat.succ)
      (List.range (E - row)) =
      List.map (fun i => (row + 1 + i, (none : Option CellVal)))
        (List.range (E - row)) :=
    List.map_congr_left (fun i _ => by
      simp only [Function.comp_apply]
      congr 1
      omega)
  rw [h3]
  simp

/-- Characterization of the data-row loop entered mid-group: with the current
group holding value `v` since row `s` and rows up to `row - 1` written, the
remaining column-1 writes follow the run decomposition `runsAux v s (row-1)`,
the merges emitted inside the loop are exactly the multi-row runs other than
the final one, and the final loop state is the last group. -/
lemma renderRows_char (l : List Sol) :
    ∀ (v : Int) (s row : Nat), 2 ≤ row → s < row →
    col1Data (renderRows row (some (v, s)) l).1 =
        col1Cont row (runsAux v s (row - 1) (l.map Sol.stars)) ∧
    (renderRows row (some (v, s)) l).2.1 =
        mergesOfRuns ((runsAux v s (row - 1) (l.map Sol.stars)).dropLast) ∧
    (renderRows row (some (v, s)) l).2.2 =
        some (lastGroup v s row (l.map Sol.stars)) := by
  induction l with
  | nil =>
    intro v s row h2 hs
    refine ⟨?_, ?_, rfl⟩
    · have h0 : row - 1 + 1 - row = 0 := by omega
      simp [renderRows, col1Data, runsAux, col1Cont, col1OfRuns, h0]
    · simp [renderRows, runsAux, mergesOfRuns]
  | cons s₀ rest ih =>
    intro v s row h2 hs
    have hmap : (s₀ :: rest).map Sol.stars = s₀.stars :: rest.map Sol.stars := rfl
    rw [hmap]
    have hrow1 : row - 1 + 1 = row := by omega
    by_cases hv : s₀.stars = v
    · -- same stars value: the loop stays in the current group
      have hcond : ¬(some s₀.stars ≠ (some (v, s)).map Prod.fst) := by simp [hv]
      rcases ih v s (row + 1) (by omega) (by omega) with ⟨ih1, ih2, ih3⟩
      rw [show row + 1 - 1 = row from by omega] at ih1 ih2
      have hruns : runsAux v s (row - 1) (s₀.stars :: rest.map Sol.stars) =
          runsAux v s row (rest.map Sol.stars) := by
        simp only [runsAux, if_pos hv, hrow1]
      have hlast : lastGroup v s row (s₀.stars :: rest.map Sol.stars) =
          lastGroup v s (row + 1) (rest.map Sol.stars) := by
        simp only [lastGroup, if_pos hv]
      rw [hruns, hlast]
      simp only [renderRows, if_neg hcond]
      refine ⟨?_, ih2, ih3⟩
      rw [List.cons_append, col1Data_cons_col1 _ _ _ h2, col1Data_rowTail, ih1]
      rcases runsAux_head (rest.map Sol.stars) v s row with ⟨E, rest', hL, hle⟩
      rw [hL]
      exact (col1Cont_step row (s, E, v) rest' hle).symm
    · -- different stars value: the loop closes the group and opens a new one
      have hcond : some s₀.stars ≠ (some (v, s)).map Prod.fst := by simp [hv]
      rcases ih s₀.stars row (row + 1) (by omega) (by omega) with ⟨ih1, ih2, ih3⟩
      rw [show row + 1 - 1 = row from by omega] at ih1 ih2
      have hruns : runsAux v s (row - 1) (s₀.stars :: rest.map Sol.stars) =
          (s, row - 1, v) :: runsAux s₀.stars row row (rest.map Sol.stars) := by
        simp only [runsAux, if_neg hv, hrow1]
      have hlast : lastGroup v s row (s₀.stars :: rest.map Sol.stars) =
          lastGroup s₀.stars row (row + 1) (rest.map Sol.stars) := by
        simp only [lastGroup, if_neg hv]
      rw [hruns, hlast]
      simp only [renderRows, if_pos hcond]
      refine ⟨?_, ?_, ih3⟩
      · rw [List.cons_append, col1Data_cons_col1 _ _ _ h2, col1Data_rowTail, ih1]
        have h0 : row - 1 + 1 - row = 0 := by omega
        rcases runsAux_head (rest.map Sol.stars) s₀.stars row row with
          ⟨E, rest', hL, hle⟩
        rw [hL]
        have hRHS : col1Cont row ((s, row - 1, v) :: (row, E, s₀.stars) :: rest') =
            col1OfRuns ((row, E, s₀.stars) :: rest') := by
          simp only [col1Cont, h0]
          simp
        rw [hRHS, col1OfRuns_cons]
      · rw [ih2]
        rcases runsAux_head (rest.map Sol.stars) s₀.stars row row with
          ⟨E, rest', hL, hle⟩
        rw [hL, List.dropLast_cons₂]
        by_cases hm : s < row - 1
        · simp [mergesOfRuns, List.filterMap_cons, hm, closeGroup]
        · simp [mergesOfRuns, List.filterMap_cons, hm, closeGroup]

/-- The last run of a decomposition: it starts where the final loop group
starts, carries the final group's value, and ends at the last data row. -/
lemma runsAux_getLast (l : List Int) (v : Int) (s e : Nat) :
    (runsAux v s e l).getLast? =
      some ((lastGroup v s (e + 1) l).2, e + l.length,
        (lastGroup v s (e + 1) l).1) := by
  induction l generalizing v s e with
  | nil => simp [runsAux, lastGroup]
  | cons a l ih =>
    have hlen : e + (a :: l).length = e + 1 + l.length := by
      simp [List.length_cons]
      omega
    by_cases h : a = v
    · simp only [runsAux, if_pos h, lastGroup]
      rw [ih v s (e + 1), hlen]
    · simp only [runsAux, if_neg h, lastGroup]
      rcases runsAux_head l a (e + 1) (e + 1) with ⟨E, rest, hL, _⟩
      rw [hL, List.getLast?_cons_cons, ← hL, ih a (e + 1) (e + 1), hlen]

/-- The guarded closing merge equals the merge prescription of a single
run record. -/
lemma closeGroup_some (x : Int) (g e : Nat) :
    closeGroup (some (x, g)) e = mergesOfRuns [(g, e, x)] := by
  by_cases h : g < e <;> simp [closeGroup, mergesOfRuns, h]

/-- The column-1 data writes of the generated sheet follow the run
decomposition of the stars column: the stars value on the first row of each
maximal run, a blank on every other row of the run. -/
lemma generate_excel_col1_char (sols : List Sol) :
    dataCol1 (generate_excel sols) = col1OfRuns (runs 2 (sols.map Sol.stars)) := by
  cases sols with
  | nil => rfl
  | cons s₀ rest =>
    have hcond : some s₀.stars ≠ (none : Option (Int × Nat)).map Prod.fst := by
      simp
    rcases renderRows_char rest s₀.stars 2 3 (by omega) (by omega) with ⟨ih1, _, _⟩
    rw [show (3 : Nat) - 1 = 2 from rfl] at ih1
    show col1Data (headerCells ++ (renderRows 2 none (s₀ :: rest)).1) = _
    rw [col1Data, List.filterMap_append]
    have hh : List.filterMap
        (fun c => if c.2.1 = 1 ∧ 2 ≤ c.1 then some (c.1, c.2.2) else none)
        headerCells = [] := rfl
    rw [hh, List.nil_append]
    simp only [renderRows, if_pos hcond]
    rw [List.cons_append]
    have hc : List.filterMap
        (fun c => if c.2.1 = 1 ∧ 2 ≤ c.1 then some (c.1, c.2.2) else none)
        ((2, 1, some (CellVal.int s₀.stars)) ::
          (rowTail 2 s₀ ++ (renderRows 3 (some (s₀.stars, 2)) rest).1)) =
        (2, some (CellVal.int s₀.stars)) ::
          col1Data (rowTail 2 s₀ ++ (renderRows 3 (some (s₀.stars, 2)) rest).1) :=
      col1Data_cons_col1 2 _ _ (by omega)
    rw [hc, col1Data_rowTail, ih1]
    show _ = col1OfRuns (runsAux s₀.stars 2 2 (rest.map Sol.stars))
    rcases runsAux_head (rest.map Sol.stars) s₀.stars 2 2 with ⟨E, rest', hL, hle⟩
    rw [hL, col1OfRuns_cons]

/-- The merge ranges of the generated sheet are exactly the multi-row maximal
runs of the stars column. -/
lemma generate_excel_merges_char (sols : List Sol) :
    (generate_excel sols).merges = mergesOfRuns (runs 2 (sols.map Sol.stars)) := by
  cases sols with
  | nil => rfl
  | cons s₀ rest =>
    have hcond : some s₀.stars ≠ (none : Option (Int × Nat)).map Prod.fst := by
      simp
    rcases renderRows_char rest s₀.stars 2 3 (by omega) (by omega) with
      ⟨_, ih2, ih3⟩
    rw [show (3 : Nat) - 1 = 2 from rfl] at ih2
    show (renderRows 2 none (s₀ :: rest)).2.1 ++
      closeGroup (renderRows 2 none (s₀ :: rest)).2.2 ((s₀ :: rest).length + 1) =
      mergesOfRuns (runsAux s₀.stars 2 2 (rest.map Sol.stars))
    simp only [renderRows, if_pos hcond]
    rw [show closeGroup (none : Option (Int × Nat)) (2 - 1) = [] from rfl,
      List.nil_append, ih2, ih3]
    rcases hgl : lastGroup s₀.stars 2 3 (rest.map Sol.stars) with ⟨gv, gs⟩
    have hne : runsAux s₀.stars 2 2 (rest.map Sol.stars) ≠ [] :=
      runsAux_ne_nil _ _ _ _
    have hlen : (s₀ :: rest).length + 1 = 2 + (rest.map Sol.stars).length := by
      simp [List.length_cons, List.length_map]
      omega
    have hgetLast :
        (runsAux s₀.stars 2 2 (rest.map Sol.stars)).getLast hne =
          (gs, 2 + (rest.map Sol.stars).length, gv) := by
      have h := runsAux_getLast (rest.map Sol.stars) s₀.stars 2 2
      rw [hgl, List.getLast?_eq_getLast _ hne] at h
      have h' := Option.some.inj h
      rw [h']
    have hmerapp : ∀ (a b : List (Nat × Nat × Int)),
        mergesOfRuns a ++ mergesOfRuns b = mergesOfRuns (a ++ b) :=
      fun a b => (List.filterMap_append a b _).symm
    rw [hlen, closeGroup_some, hmerapp]
    rw [show (gs, 2 + (rest.map Sol.stars).length, gv) =
      (runsAux s₀.stars 2 2 (rest.map Sol.stars)).getLast hne from hgetLast.symm]
    rw [List.dropLast_append_getLast hne]

lemma runsFlatten_runsAux (l : List Int) :
    ∀ (v : Int) (s e : Nat), s ≤ e →
    runsFlatten (runsAux v s e l) = List.replicate (e + 1 - s) v ++ l := by
  induction l with
  | nil =>
    intro v s e hse
    simp [runsAux, runsFlatten]
  | cons a l ih =>
    intro v s e hse
    by_cases h : a = v
    · simp only [runsAux, if_pos h]
      rw [ih v s (e + 1) (by omega),
        show e + 1 + 1 - s = (e + 1 - s) + 1 from by omega,
        List.replicate_succ']
      subst h
      simp
    · simp only [runsAux, if_neg h]
      rw [runsFlatten, List.flatMap_cons]
      have hrest : (runsAux a (e + 1) (e + 1) l).flatMap
          (fun r => List.replicate (r.2.1 + 1 - r.1) r.2.2) =
          List.replicate 1 a ++ l := by
        have h2 := ih a (e + 1) (e + 1) (le_refl _)
        rw [runsFlatten] at h2
        rw [h2, show e + 1 + 1 - (e + 1) = 1 from by omega]
      rw [hrest]
      simp

/-- The run decomposition expands back to the input: the runs tile the whole
sequence contiguously with their recorded values. -/
lemma runsFlatten_runs (l : List Int) : runsFlatten (runs 2 l) = l := by
  cases l with
  | nil => rfl
  | cons a l =>
    show runsFlatten (runsAux a 2 2 l) = a :: l
    rw [runsFlatten_runsAux l a 2 2 (le_refl 2),
      show 2 + 1 - 2 = 1 from rfl]
    simp

/-- Adjacent runs of a decomposition carry distinct values and abut exactly
(each run starts on the row after its predecessor ends): together with
`runsFlatten_runs` this certifies that `runs` lists the maximal contiguous
runs of equal values. -/
lemma runs_chain (start : Nat) (l : List Int) :
    (runs start l).Chain'
      (fun r r2 => r.2.2 ≠ r2.2.2 ∧ r2.1 = r.2.1 + 1) := by
  suffices h : ∀ (l' : List Int) (v : Int) (s e : Nat),
      (runsAux v s e l').Chain'
        (fun r r2 => r.2.2 ≠ r2.2.2 ∧ r2.1 = r.2.1 + 1) by
    cases l with
    | nil => exact List.chain'_nil
    | cons a l => exact h l a start start
  intro l'
  induction l' with
  | nil =>
    intro v s e
    simp [runsAux]
  | cons a l' ih =>
    intro v s e
    by_cases h : a = v
    · simp only [runsAux, if_pos h]
      exact ih v s (e + 1)
    · simp only [runsAux, if_neg h]
      rcases runsAux_head l' a (e + 1) (e + 1) with ⟨E, rest, hL, _⟩
      rw [hL, List.chain'_cons]
      have hch := ih a (e + 1) (e + 1)
      rw [hL] at hch
      exact ⟨⟨fun hh => h hh.symm, rfl⟩, hch⟩

/-- Every run of a decomposition spans at least one row (`start ≤ end`). -/
lemma runs_wf (start : Nat) (l : List Int) :
    ∀ r ∈ runs start l, r.1 ≤ r.2.1 := by
  suffices h : ∀ (l' : List Int) (v : Int) (s e : Nat), s ≤ e →
      ∀ r ∈ runsAux v s e l', r.1 ≤ r.2.1 by
    cases l with
    | nil => intro r hr; cases hr
    | cons a l => exact h l a start start (le_refl _)
  intro l'
  induction l' with
  | nil =>
    intro v s e hse r hr
    rcases List.mem_singleton.mp hr with rfl
    exact hse
  | cons a l' ih =>
    intro v s e hse r hr
    by_cases h : a = v
    · rw [runsAux, if_pos h] at hr
      exact ih v s (e + 1) (by omega) r hr
    · rw [runsAux, if_neg h] at hr
      rcases List.mem_cons.mp hr with rfl | hr2
      · exact hse
      · exact ih a (e + 1) (e + 1) (le_refl _) r hr2

/-- C3: for every solution sequence (in particular every sorted one), the
column-1 data writes of `generate_excel` put the stars value only on the
first row of each maximal contiguous run of equal stars and a blank on every
other row of the run, and the merge ranges are exactly the maximal runs of
length greater than one (runs of length one are never merged).  `runs`
computes the maximal contiguous runs, as certified by `runsFlatten_runs` and
`runs_chain`; `mergesOfRuns` keeps exactly the runs with `start < end`. -/
theorem generate_excel_groups (sols : List Sol) :
    dataCol1 (generate_excel sols) = col1OfRuns (runs 2 (sols.map Sol.stars)) ∧
    (generate_excel sols).merges = mergesOfRuns (runs 2 (sols.map Sol.stars)) :=
  ⟨generate_excel_col1_char sols, generate_excel_merges_char sols⟩

lemma dropWhile_ne_nil {p : Char → Bool} {l : List Char}
    (h : ∃ c ∈ l, ¬ p c) : l.dropWhile p ≠ [] := by
  induction l with
  | nil =>
    rcases h with ⟨c, hc, _⟩
    cases hc
  | cons a l ih =>
    rcases h with ⟨c, hc, hpc⟩
    rw [List.dropWhile_cons]
    by_cases hpa : p a
    · rw [if_pos hpa]
      apply ih
      rcases List.mem_cons.mp hc with h1 | h1
      · exact absurd (h1 ▸ hpa) hpc
      · exact ⟨c, h1, hpc⟩
    · rw [if_neg hpa]
      exact List.cons_ne_nil _ _

lemma beforeLastSlash_ne_nil {l : List Char} (h : '/' ∈ l) :
    beforeLastSlash l ≠ [] := by
  induction l with
  | nil => cases h
  | cons c cs ih =>
    rw [beforeLastSlash]
    by_cases hcs : '/' ∈ cs
    · rw [if_pos hcs]
      exact List.cons_ne_nil _ _
    · rcases List.mem_cons.mp h with h1 | h1
      · rw [if_neg hcs, if_pos h1.symm]
        exact List.cons_ne_nil _ _
      · exact absurd h1 hcs

/-- A path containing a slash has a non-empty dirname. -/
lemma dirnameList_ne_nil {l : List Char} (h : '/' ∈ l) :
    dirnameList l ≠ [] := by
  rw [dirnameList]
  by_cases hall : (beforeLastSlash l).all (fun c => c = '/')
  · rw [if_pos hall]
    exact beforeLastSlash_ne_nil h
  · rw [if_neg hall]
    rw [stripTrailingSlashes]
    intro hcontra
    rw [List.reverse_eq_nil_iff] at hcontra
    refine dropWhile_ne_nil ?_ hcontra
    rw [List.all_eq_true] at hall
    push_neg at hall
    rcases hall with ⟨c, hc, hcne⟩
    exact ⟨c, List.mem_reverse.mpr hc, by simpa using hcne⟩

lemma getLast?_joinChars (a b : List Char) (hb : b ≠ []) :
    (joinChars a b).getLast? = b.getLast? := by
  have hsome : b.getLast? = some (b.getLast hb) := List.getLast?_eq_getLast b hb
  rw [joinChars]
  by_cases ha : a = []
  · rw [if_pos ha]
  · rw [if_neg ha]
    by_cases hsl : a.getLast? = some '/'
    · rw [if_pos hsl, List.getLast?_append, hsome]
      rfl
    · rw [if_neg hsl,
        show a ++ '/' :: b = (a ++ ['/']) ++ b from by simp,
        List.getLast?_append, hsome]
      rfl

lemma joinChars_of_ne (a b : List Char) (ha : a ≠ [])
    (hsl : a.getLast? ≠ some '/') : joinChars a b = a ++ '/' :: b := by
  rw [joinChars, if_neg ha, if_neg hsl]

/-- The output path always has a directory component: it ends with
`results/<filename>`, so its dirname is non-empty. -/
lemma output_path_dirname_ne (sd : String) (x X f F : Int) :
    dirname (output_path sd x X f F) ≠ "" := by
  have hrd : ("results".data : List Char) ≠ [] := by decide
  have hA'last : (joinChars sd.data "results".data).getLast? = some 's' := by
    rw [getLast?_joinChars _ _ hrd]
    decide
  have hA'ne : joinChars sd.data "results".data ≠ [] := by
    intro h
    rw [h] at hA'last
    simp at hA'last
  have hA'sl : (joinChars sd.data "results".data).getLast? ≠ some '/' := by
    rw [hA'last]
    decide
  have hpath : (output_path sd x X f F).data =
      joinChars sd.data "results".data ++
        '/' :: (output_filename x X f F).data := by
    show (String.mk (joinChars (String.mk (joinChars sd.data "results".data)).data
      (output_filename x X f F).data)).data = _
    rw [show (String.mk (joinChars sd.data "results".data)).data =
      joinChars sd.data "results".data from rfl]
    rw [joinChars_of_ne _ _ hA'ne hA'sl]
  have hmem : '/' ∈ (output_path sd x X f F).data := by
    rw [hpath]
    simp
  intro hcontra
  apply dirnameList_ne_nil hmem
  have hdata : (dirname (output_path sd x X f F)).data =
      dirnameList (output_path sd x X f F).data := rfl
  rw [hcontra] at hdata
  exact hdata.symm

lemma findFile_writeFile (files : List (String × Sheet)) (p : String)
    (sh : Sheet) : findFile (writeFile files p sh) p = some sh := by
  induction files with
  | nil => simp [writeFile, findFile]
  | cons a rest ih =>
    obtain ⟨q, t⟩ := a
    by_cases h : q = p
    · simp [writeFile, findFile, h]
    · simp [writeFile, findFile, h, ih]

lemma writeFile_idem (files : List (String × Sheet)) (p : String)
    (sh : Sheet) : writeFile (writeFile files p sh) p sh = writeFile files p sh := by
  induction files with
  | nil => simp [writeFile]
  | cons a rest ih =>
    obtain ⟨q, t⟩ := a
    by_cases h : q = p
    · simp [writeFile, h]
    · simp [writeFile, h, ih]

/-- C10: the save step of `generate_excel` fails with `FileNotFoundError`
exactly when `os.path.dirname(output_path)` is empty (a bare filename), and
then no file is written; when a directory component is present the directory
exists afterwards (created if missing, tolerated if present) and the single
file write stores the generated sheet at the path. -/
theorem generate_excel_save_dirname (sols : List Sol) (p : String) (fs : FS) :
    (generate_excel_save sols p fs = Except.error "FileNotFoundError" ↔
      dirname p = "") ∧
    ((generate_excel_save sols p fs).toOption.bind
        (fun fs1 => findFile fs1.files p) =
      if dirname p = "" then none else some (generate_excel sols)) ∧
    ((generate_excel_save sols p fs).toOption.map
        (fun fs1 => decide (dirname p ∈ fs1.dirs)) =
      if dirname p = "" then none else some true) := by
  by_cases hd : dirname p = ""
  · refine ⟨by simp [generate_excel_save, makedirs, hd], ?_, ?_⟩ <;>
      simp [generate_excel_save, makedirs, hd, Except.toOption]
  · by_cases hmem : dirname p ∈ fs.dirs
    · refine ⟨?_, ?_, ?_⟩ <;>
        simp [generate_excel_save, makedirs, hd, hmem, Except.toOption,
          findFile_writeFile]
    · refine ⟨?_, ?_, ?_⟩ <;>
        simp [generate_excel_save, makedirs, hd, hmem, Except.toOption,
          findFile_writeFile]

/-- C9: on an empty solutions list the sheet holds exactly the four header
cells of row 1 and no data-row cells, no merge is performed (the closing
merge is skipped because `group_start_row` was never set, as the second
conjunct records), and saving to a path with a directory component completes
without error. -/
theorem generate_excel_empty :
    generate_excel [] = { cells := headerCells, merges := [] } ∧
    (renderRows 2 none ([] : List Sol)).2.2 = none ∧
    generate_excel_save [] "results/output.xlsx" emptyFS =
      Except.ok { dirs := ["results"],
                  files := [("results/output.xlsx",
                    { cells := headerCells, merges := [] })] } :=
  ⟨rfl, rfl, rfl⟩

lemma main_model_of_validate_error (sd : String) (x X f F : Int) (fs : FS)
    (e : String) (he : validate f F x X = Except.error e) :
    main_model sd x X f F fs = Except.error e := by
  rw [main_model, he]

/-- C7: `solve` is deterministic (in this pure embedding two calls with the
same bounds are the same term, so the first conjunct is definitional), and
rendering is idempotent on the filesystem model: a second run over the state
left by a successful first run succeeds and leaves the state unchanged,
because the directory already exists and the overwrite stores the same
sheet. -/
theorem solve_deterministic_render_idempotent :
    (∀ fm fM xm xM : Int, solve fm fM xm xM = solve fm fM xm xM) ∧
    (∀ (sols : List Sol) (p : String) (fs fs1 : FS),
      generate_excel_save sols p fs = Except.ok fs1 →
      generate_excel_save sols p fs1 = Except.ok fs1) := by
  refine ⟨fun _ _ _ _ => rfl, ?_⟩
  intro sols p fs fs1 h
  rw [generate_excel_save] at h ⊢
  by_cases hd : dirname p = ""
  · simp [makedirs, hd] at h
  · by_cases hmem : dirname p ∈ fs.dirs
    · simp only [makedirs, if_neg hd, if_pos hmem] at h
      have hfs1 : fs1 = { fs with files := writeFile fs.files p (generate_excel sols) } :=
        (Except.ok.inj h).symm
      subst hfs1
      simp only [makedirs, if_neg hd, if_pos hmem, writeFile_idem]
    · simp only [makedirs, if_neg hd, if_neg hmem] at h
      have hfs1 : fs1 = { dirs := dirname p :: fs.dirs,
                          files := writeFile fs.files p (generate_excel sols) } :=
        (Except.ok.inj h).symm
      subst hfs1
      have hmem1 : dirname p ∈ dirname p :: fs.dirs := List.mem_cons_self _ _
      simp only [makedirs, if_neg hd, if_pos hmem1, writeFile_idem]

theorem solve_deterministic_render_idempotent_witness :
    generate_excel_save [] "results/a.xlsx" emptyFS =
      Except.ok { dirs := ["results"],
                  files := [("results/a.xlsx",
                    { cells := headerCells, merges := [] })] } ∧
    generate_excel_save [] "results/a.xlsx"
      { dirs := ["results"],
        files := [("results/a.xlsx", { cells := headerCells, merges := [] })] } =
      Except.ok { dirs := ["results"],
                  files := [("results/a.xlsx",
                    { cells := headerCells, merges := [] })] } :=
  ⟨rfl, solve_deterministic_render_idempotent.2 [] "results/a.xlsx"
    emptyFS _ rfl⟩

/-- C4: the CLI validation rules are applied in source order — fusion
ordering, then xyz ordering, then positivity — so each error message occurs
exactly under the stated condition with all earlier checks passed; a
validation error makes `main` fail with that error before any enumeration
(the model short-circuits to the error); `fusion_min=5, fusion_max=1` fails
with the ordering error and `xyz_min=0` fails the positivity check. -/
theorem main_validation_order (sd : String) (x X f F : Int) (fs : FS) :
    (validate f F x X = Except.error "fusion_min must be ≤ fusion_max" ↔
      F < f) ∧
    (validate f F x X = Except.error "xyz_min must be ≤ xyz_max" ↔
      f ≤ F ∧ X < x) ∧
    (validate f F x X = Except.error "All level/rank values must be ≥ 1" ↔
      f ≤ F ∧ x ≤ X ∧ (f < 1 ∨ x < 1)) ∧
    (validate f F x X = Except.ok () ↔ f ≤ F ∧ x ≤ X ∧ 1 ≤ f ∧ 1 ≤ x) ∧
    (∀ e, validate f F x X = Except.error e →
      main_model sd x X f F fs = Except.error e) ∧
    validate 5 1 2 6 = Except.error "fusion_min must be ≤ fusion_max" ∧
    validate 1 5 0 6 = Except.error "All level/rank values must be ≥ 1" := by
  refine ⟨?_, ?_, ?_, ?_, main_model_of_validate_error sd x X f F fs, rfl, rfl⟩
  all_goals rw [validate]
  all_goals split_ifs with h1 h2 h3
  all_goals simp_all
  all_goals omega

theorem main_validation_order_witness :
    main_model "/app/src" 2 6 5 1 emptyFS =
      Except.error "fusion_min must be ≤ fusion_max" :=
  (main_validation_order "/app/src" 2 6 5 1 emptyFS).2.2.2.2.1
    "fusion_min must be ≤ fusion_max" rfl

/-- C6: on valid bounds `main` succeeds, stores the sheet generated from the
enumerator's output at the computed output path (enumerator and renderer run
in sequence with that path), and the path is
`os.path.join(script_dir, "results", "sec xyz{xyz_min}-{xyz_max} fusion{fusion_min}-{fusion_max}.xlsx")`,
evaluated concretely on the spec's example bounds in the last conjunct. -/
theorem main_success_path (sd : String) (x X f F : Int) (fs : FS)
    (h1 : f ≤ F) (h2 : x ≤ X) (h3 : 1 ≤ f) (h4 : 1 ≤ x) :
    ∃ fs1, main_model sd x X f F fs = Except.ok fs1 ∧
      findFile fs1.files (output_path sd x X f F) =
        some (generate_excel (solve f F x X)) ∧
      output_path sd x X f F =
        joinPath (joinPath sd "results") (output_filename x X f F) ∧
      output_path "/app/src" 2 6 1 5 =
        "/app/src/results/sec xyz2-6 fusion1-5.xlsx" := by
  have hval : validate f F x X = Except.ok () := by
    rw [validate]
    split_ifs with a b c
    · exact absurd a (by omega)
    · exact absurd b (by omega)
    · exact absurd c (by omega)
    · rfl
  have hd : dirname (output_path sd x X f F) ≠ "" :=
    output_path_dirname_ne sd x X f F
  simp only [main_model, hval]
  rw [generate_excel_save]
  by_cases hmem : dirname (output_path sd x X f F) ∈ fs.dirs
  · refine ⟨{ fs with
        files := writeFile fs.files (output_path sd x X f F)
          (generate_excel (solve f F x X)) },
      ?_, findFile_writeFile _ _ _, rfl, by decide⟩
    simp [makedirs, hd, hmem]
  · refine ⟨{ dirs := dirname (output_path sd x X f F) :: fs.dirs,
              files := writeFile fs.files (output_path sd x X f F)
                (generate_excel (solve f F x X)) },
      ?_, findFile_writeFile _ _ _, rfl, by decide⟩
    simp [makedirs, hd, hmem]

theorem main_success_path_witness :
    ((1 : Int) ≤ 5 ∧ (2 : Int) ≤ 6 ∧ (1 : Int) ≤ 1 ∧ (1 : Int) ≤ 2) ∧
    (∃ fs1, main_model "/app/src" 2 6 1 5 emptyFS = Except.ok fs1 ∧
      findFile fs1.files (output_path "/app/src" 2 6 1 5) =
        some (generate_excel (solve 1 5 2 6)) ∧
      output_path "/app/src" 2 6 1 5 =
        joinPath (joinPath "/app/src" "results") (output_filename 2 6 1 5) ∧
      output_path "/app/src" 2 6 1 5 =
        "/app/src/results/sec xyz2-6 fusion1-5.xlsx") :=
  ⟨⟨by decide, by decide, by decide, by decide⟩,
    main_success_path "/app/src" 2 6 1 5 emptyFS (by decide) (by decide)
      (by decide) (by decide)⟩

example : solve 1 1 1 1 = [⟨2, 3, 1, 1⟩] := by decide

example : solve 1 2 1 2 =
    [⟨4, 6, 2, 2⟩, ⟨3, 5, 2, 1⟩, ⟨3, 4, 1, 2⟩, ⟨2, 3, 1, 1⟩] := by decide

example : (generate_excel [⟨3, 4, 1, 2⟩, ⟨3, 5, 2, 1⟩, ⟨2, 3, 1, 1⟩]).merges =
    [(2, 3)] := by decide

example : dataCol1 (generate_excel [⟨3, 4, 1, 2⟩, ⟨3, 5, 2, 1⟩, ⟨2, 3, 1, 1⟩]) =
    [(2, some (CellVal.int 3)), (3, none), (4, some (CellVal.int 2))] := by
  decide

example : dirname "output.xlsx" = "" := by decide

example : dirname "results/output.xlsx" = "results" := by decide
